import Mathlib

/-!
Verification development for the transcript word/phrase counting pipeline
(`phrases_counts.py`, with `parse_dir` mirrored in `word_clouds.py`).

Strings are modelled as lists of characters.  Each compiled regular
expression of the source is embedded as a deterministic matcher that, at a
given scan position, either fails or returns the length of the match that
the Python regex engine would produce there; `re.sub` is embedded as a
left-to-right scan (`subAll`) that replaces every non-overlapping match and
never re-scans replaced text.  Word-boundary and look-around conditions
inspect the character of the original string immediately before the scan
position, exactly as the engine does.
-/

abbrev Chars := List Char

/-- Whitespace as matched by the regex class backslash-s and by strip. -/
def isWhite (c : Char) : Bool :=
  c == ' ' || c == '\t' || c == '\n' || c == '\r' || c == '\x0b' || c == '\x0c'

/-- Word characters for word-boundary tests. -/
def isWordChar (c : Char) : Bool := c.isAlphanum || c == '_'

def lowerC (c : Char) : Char :=
  if 'A' ≤ c && c ≤ 'Z' then Char.ofNat (c.toNat + 32) else c

/-- Characters of a string literal. -/
def strChars (s : String) : Chars := s.data

-- ### primitive parsers: each consumes a prefix and returns the rest

def pChar (p : Char → Bool) : Chars → Option Chars
  | [] => none
  | c :: rest => if p c then some rest else none

def pLit (a : Char) : Chars → Option Chars := pChar (fun c => c == a)

def pDigit : Chars → Option Chars := pChar Char.isDigit

def p2Digits (s : Chars) : Option Chars := (pDigit s).bind pDigit

def p3Digits (s : Chars) : Option Chars := ((pDigit s).bind pDigit).bind pDigit

/-- Millisecond separator: dot or comma. -/
def pSep : Chars → Option Chars := pChar (fun c => c == '.' || c == ',')

/-- Two digits, colon, two digits, colon, two digits. -/
def pHMS (s : Chars) : Option Chars :=
  ((((p2Digits s).bind (pLit ':')).bind p2Digits).bind (pLit ':')).bind p2Digits

/-- `pHMS` followed by a separator and three digits. -/
def pHMSms (s : Chars) : Option Chars := ((pHMS s).bind pSep).bind p3Digits

/-- Case-insensitive literal match. -/
def pLitCIStr : Chars → Chars → Option Chars
  | [], s => some s
  | _ :: _, [] => none
  | a :: more, c :: rest => if lowerC c == lowerC a then pLitCIStr more rest else none

/-- The previous character is absent or not a word character. -/
def prevNonWord : Option Char → Bool
  | none => true
  | some c => !isWordChar c

/-- The next character is absent or not a word character. -/
def headNonWord : Chars → Bool
  | [] => true
  | c :: _ => !isWordChar c

-- ### matchers for the compiled patterns of the source
-- A matcher receives the original character just before the scan position
-- and the remaining input, and returns the match length.

/-- Matcher for RANGE_VTT. -/
def matchRangeVtt (prev : Option Char) (s : Chars) : Option Nat :=
  if !prevNonWord prev then none else
  match pHMSms s with
  | none => none
  | some r =>
    let r := r.dropWhile isWhite
    match ((pLit '-' r).bind (pLit '-')).bind (pLit '>') with
    | none => none
    | some r =>
      let r := r.dropWhile isWhite
      match pHMSms r with
      | none => none
      | some r => if headNonWord r then some (s.length - r.length) else none

/-- Closing part of STAMP_BRACKETED: optional whitespace and a bracket. -/
def pBrClose (r : Chars) : Option Chars := pLit ']' (r.dropWhile isWhite)

/-- After the leading digits of STAMP_BRACKETED: colon, two digits, an
optional further colon-and-two-digits group (tried greedily), then the
closing bracket. -/
def pBrMM (r : Chars) : Option Chars :=
  match (pLit ':' r).bind p2Digits with
  | none => none
  | some r =>
    (((pLit ':' r).bind p2Digits).bind pBrClose) <|> pBrClose r

/-- Matcher for STAMP_BRACKETED. -/
def matchStampBracketed (_ : Option Char) (s : Chars) : Option Nat :=
  match pLit '[' s with
  | none => none
  | some r0 =>
    let r0 := r0.dropWhile isWhite
    match ((p2Digits r0).bind pBrMM) <|> ((pDigit r0).bind pBrMM) with
    | none => none
    | some r => some (s.length - r.length)

/-- Matcher for STAMP_HMS_MS. -/
def matchStampHMSms (prev : Option Char) (s : Chars) : Option Nat :=
  if !prevNonWord prev then none else
  match pHMSms s with
  | none => none
  | some r => if headNonWord r then some (s.length - r.length) else none

/-- Matcher for STAMP_HMS. -/
def matchStampHMS (prev : Option Char) (s : Chars) : Option Nat :=
  if !prevNonWord prev then none else
  match pHMS s with
  | none => none
  | some r => if headNonWord r then some (s.length - r.length) else none

/-- The rest starts with a colon followed by a digit (negative lookahead of
STAMP_MS). -/
def isColonDigit : Chars → Bool
  | ':' :: d :: _ => d.isDigit
  | _ => false

/-- Matcher for STAMP_MS. -/
def matchStampMS (prev : Option Char) (s : Chars) : Option Nat :=
  if !prevNonWord prev then none else
  match (((p2Digits s).bind (pLit ':')) <|> ((pDigit s).bind (pLit ':'))).bind p2Digits with
  | none => none
  | some r =>
    if headNonWord r && !isColonDigit r then some (s.length - r.length) else none

/-- Matcher for HTML_TAG. -/
def matchHtmlTag (_ : Option Char) (s : Chars) : Option Nat :=
  match pLit '<' s with
  | none => none
  | some r =>
    let inner := r.takeWhile (fun c => c != '>')
    if inner.isEmpty then none else
    match pLit '>' (r.drop inner.length) with
    | none => none
    | some r2 => some (s.length - r2.length)

/-- Matcher for VTT_CUE_TAG. -/
def matchCueTag (_ : Option Char) (s : Chars) : Option Nat :=
  match pLit '<' s with
  | none => none
  | some r =>
    let r := match pLit '/' r with
      | some r2 => r2
      | none => r
    match pChar (fun c => c == 'c' || c == 'C') r with
    | none => none
    | some r =>
      let withClass : Option Chars :=
        match pLit '.' r with
        | none => none
        | some r1 =>
          let inner := r1.takeWhile (fun c => c != '>')
          if inner.isEmpty then none else pLit '>' (r1.drop inner.length)
      match withClass <|> pLit '>' r with
      | none => none
      | some rEnd => some (s.length - rEnd.length)

/-- Matcher for URL; tries the scheme alternative before the www form, as
the alternation in the pattern does. -/
def matchUrl (_ : Option Char) (s : Chars) : Option Nat :=
  (match pLitCIStr (strChars ("http")) s with
   | none => none
   | some r =>
     match (match pChar (fun c => lowerC c == 's') r with
            | some r1 => pLitCIStr (strChars ("://")) r1
            | none => none) <|> pLitCIStr (strChars ("://")) r with
     | none => none
     | some r =>
       let tail := r.takeWhile (fun c => !isWhite c)
       if tail.isEmpty then none else some (s.length - (r.length - tail.length))) <|>
  (match pLitCIStr (strChars ("www.")) s with
   | none => none
   | some r =>
     let tail := r.takeWhile (fun c => !isWhite c)
     if tail.isEmpty then none else some (s.length - (r.length - tail.length)))

-- ### the substitution scan

/-- One left-to-right pass of `re.sub`: at each position, if the matcher
fires, emit the replacement and resume after the match; replaced text is
never re-scanned.  The fuel is the length of the input, which bounds the
number of steps since every step consumes at least one character. -/
def subAllF (m : Option Char → Chars → Option Nat) (repl : Chars) :
    Nat → Option Char → Chars → Chars
  | 0, _, s => s
  | _ + 1, _, [] => []
  | fuel + 1, prev, c :: rest =>
    match m prev (c :: rest) with
    | some k =>
      let k := max k 1
      repl ++ subAllF m repl fuel ((c :: rest).take k).getLast? ((c :: rest).drop k)
    | none => c :: subAllF m repl fuel (some c) rest

def subAll (m : Option Char → Chars → Option Nat) (repl : Chars) (s : Chars) : Chars :=
  subAllF m repl s.length none s

def rangeVttSub (s : Chars) : Chars := subAll matchRangeVtt [' '] s
def stampBracketedSub (s : Chars) : Chars := subAll matchStampBracketed [' '] s
def stampHmsMsSub (s : Chars) : Chars := subAll matchStampHMSms [' '] s
def stampHmsSub (s : Chars) : Chars := subAll matchStampHMS [' '] s
def stampMsSub (s : Chars) : Chars := subAll matchStampMS [' '] s
def htmlTagSub (s : Chars) : Chars := subAll matchHtmlTag [' '] s
def cueTagSub (s : Chars) : Chars := subAll matchCueTag [' '] s
def urlSub (s : Chars) : Chars := subAll matchUrl [' '] s

/-- The five timestamp rules in the order of the source. -/
def strip_timestamps_everywhere (s : Chars) : Chars :=
  stampMsSub (stampHmsSub (stampHmsMsSub (stampBracketedSub (rangeVttSub s))))

-- ### the line normalizer

inductive Fmt
  | vtt
  | srt
  | txt
deriving DecidableEq

/-- Trailing carriage returns and newlines removed, as by the first
statement of clean_line. -/
def rstripCRNL (s : Chars) : Chars :=
  (s.reverse.dropWhile (fun c => c == '\r' || c == '\n')).reverse

/-- Whitespace removed from both ends, as by strip. -/
def stripWs (s : Chars) : Chars :=
  ((s.dropWhile isWhite).reverse.dropWhile isWhite).reverse

/-- Anchored test for WEBVTT_HEADER. -/
def webvttMatch (s : Chars) : Bool :=
  match pLitCIStr (strChars ("webvtt")) (s.dropWhile isWhite) with
  | some rest => headNonWord rest
  | none => false

/-- Anchored test for LINE_NUMBER_SRT: only whitespace around a nonempty
run of digits. -/
def lineNumberMatch (s : Chars) : Bool :=
  let t := s.dropWhile isWhite
  let d := t.takeWhile Char.isDigit
  !d.isEmpty && (t.drop d.length).all isWhite

/-- Index of the first colon. -/
def firstColonIdx : Chars → Option Nat
  | [] => none
  | c :: rest => if c = ':' then some 0 else (firstColonIdx rest).map (· + 1)

/-- Anchored substitution of SPEAKER_PREFIX by the empty string.  The
character class before the colon cannot cross a colon, so the pattern can
only match at the first colon of the line; it does when at least one
character precedes that colon, the colon is reachable within the 80
character budget after some prefix of the leading whitespace, and at least
one whitespace character follows it.  The greedy trailing run of
whitespace is removed with the prefix. -/
def speakerSub (s : Chars) : Chars :=
  match firstColonIdx s with
  | none => s
  | some c =>
    if 1 ≤ c && c ≤ (s.takeWhile isWhite).length + 80 then
      match s.drop (c + 1) with
      | r :: rest =>
        if isWhite r then (r :: rest).dropWhile isWhite else s
      | [] => s
    else s

/-- The non-speech-cue test applied by clean_line to the untrimmed string:
first and last character are a matching parenthesis or bracket pair. -/
def parenWrapped (s : Chars) : Bool :=
  (s.head? == some '(' && s.getLast? == some ')') ||
  (s.head? == some '[' && s.getLast? == some ']')

/-- The format-independent removals of clean_line, in source order. -/
def removalsCore (s : Chars) : Chars :=
  speakerSub (strip_timestamps_everywhere (htmlTagSub (urlSub s)))

/-- The tail of clean_line after the removals: drop the line when it is
wrapped in parentheses or brackets, otherwise trim it. -/
def finishLine (u : Chars) : Chars :=
  if parenWrapped u then [] else stripWs u

/-- Embedding of clean_line. -/
def clean_line (line : Chars) (fmt : Fmt) : Chars :=
  if rstripCRNL line = [] then []
  else
    match fmt with
    | Fmt.vtt =>
      if webvttMatch (rstripCRNL line) then []
      else finishLine (removalsCore (cueTagSub (rstripCRNL line)))
    | Fmt.srt =>
      if lineNumberMatch (rstripCRNL line) then []
      else finishLine (removalsCore (rstripCRNL line))
    | Fmt.txt => finishLine (removalsCore (rstripCRNL line))

/-- The value clean_line tests against the cue check, for lines that are
not discarded earlier: the line after end-of-line stripping, the
format-specific cue-tag substitution, and the four removal passes. -/
def afterRemovals (line : Chars) (fmt : Fmt) : Chars :=
  match fmt with
  | Fmt.vtt => removalsCore (cueTagSub (rstripCRNL line))
  | Fmt.srt => removalsCore (rstripCRNL line)
  | Fmt.txt => removalsCore (rstripCRNL line)

-- ### the tokenizer

/-- Characters kept by tokenization (the complement of NON_ALNUM_APOST). -/
def isTokChar (c : Char) : Bool := c.isAlphanum || c == '\'' || c == '-'

/-- Substitution of NON_ALNUM_APOST by a single space: every maximal run
of excluded characters collapses to one space.  The flag records whether
the previous character belonged to such a run. -/
def nonAlnumAux : Bool → Chars → Chars
  | _, [] => []
  | inRun, c :: rest =>
    if isTokChar c then c :: nonAlnumAux false rest
    else if inRun then nonAlnumAux true rest
    else ' ' :: nonAlnumAux true rest

def nonAlnumApostSub (s : Chars) : Chars := nonAlnumAux false s

/-- Splitting on whitespace runs, as by split with no argument. -/
def splitWsAux : Chars → Chars → List Chars
  | [], acc => if acc.isEmpty then [] else [acc.reverse]
  | c :: rest, acc =>
    if isWhite c then
      if acc.isEmpty then splitWsAux rest [] else acc.reverse :: splitWsAux rest []
    else splitWsAux rest (c :: acc)

def splitWs (s : Chars) : List Chars := splitWsAux s []

/-- Substitution of APOST_EDGES by the empty string: the leading and the
trailing run of apostrophes are removed. -/
def apostEdgesSub (s : Chars) : Chars :=
  ((s.dropWhile (fun c => c == '\'')).reverse.dropWhile (fun c => c == '\'')).reverse

/-- Per-token normalization: strip edge apostrophes, map the right single
quotation mark to an apostrophe, then delete every apostrophe. -/
def procToken (raw : Chars) : Chars :=
  ((apostEdgesSub raw).map (fun c => if c == '’' then '\'' else c)).filter
    (fun c => c != '\'')

/-- Nonempty and all digits, as by isdigit. -/
def pyIsDigit (t : Chars) : Bool := !t.isEmpty && t.all Char.isDigit

/-- Embedding of tokenize. -/
def tokenize (text : Chars) (keep_numbers : Bool) : List Chars :=
  (splitWs (nonAlnumApostSub text)).filterMap (fun raw =>
    let tok := procToken raw
    if !keep_numbers && pyIsDigit tok then none
    else if !tok.isEmpty then some tok else none)

/-- Embedding of lower for the casing option. -/
def pyLower (s : Chars) : Chars := s.map lowerC

-- ### n-grams and the aggregator

/-- Joining with single spaces, as by join. -/
def joinSpace : List Chars → Chars
  | [] => []
  | [x] => x
  | x :: rest => x ++ ' ' :: joinSpace rest

/-- Embedding of make_ngrams. -/
def make_ngrams (tokens : List Chars) (n : Nat) : List Chars :=
  if tokens.length < n then []
  else (List.range (tokens.length - n + 1)).map (fun i => joinSpace ((tokens.drop i).take n))

/-- The built-in stopword list DEFAULT_STOPWORDS. -/
def DEFAULT_STOPWORDS : List Chars :=
  (["a", "an", "and", "the", "or", "but", "if", "then", "than", "that", "this",
    "those", "these", "there", "here", "when", "where", "why", "how", "what",
    "which", "who", "whom", "whose", "with", "without", "for", "from", "to",
    "in", "into", "on", "onto", "of", "at", "by", "be", "is", "am", "are",
    "was", "were", "been", "being", "as", "do", "does", "did", "done", "doing",
    "have", "has", "had", "having", "i", "me", "my", "myself", "we", "our",
    "ours", "ourselves", "you", "your", "yours", "yourself", "yourselves",
    "he", "him", "his", "himself", "she", "her", "hers", "herself", "it",
    "its", "itself", "they", "them", "their", "theirs", "themselves", "all",
    "any", "both", "each", "few", "more", "most", "other", "some", "such",
    "no", "nor", "not", "only", "own", "same", "so", "too", "very", "can",
    "could", "should", "would", "may", "might", "will", "just", "also", "um",
    "uh", "erm", "hmm", "like", "kinda", "sorta", "yeah", "right", "okay",
    "ok", "alright"]).map String.data

/-- The configuration surface of parse_dir. -/
structure Args where
  minlen : Nat
  stop : List Chars
  lower : Bool
  keep_numbers : Bool
  ngrams : List Nat
deriving DecidableEq

-- ### file reading and decoding

inductive Enc
  | utf8
  | latin1
deriving DecidableEq

inductive ErrMode
  | strict
  | ignore
deriving DecidableEq

inductive ReadErr
  | ioFail
  | decodeFail
deriving DecidableEq

/-- A candidate file of the corpus: its format (from the extension) and
its raw bytes, absent when the operating system refuses every read. -/
structure TFile where
  fmt : Fmt
  bytes : Option (List UInt8)
deriving DecidableEq

/-- A continuation byte. -/
def contOk (b : UInt8) : Bool := 0x80 ≤ b.toNat && b.toNat ≤ 0xBF

/-- Decoding of one UTF-8 sequence: the decoded character, when the bytes
starting here form a valid sequence, and the number of bytes consumed,
which on failure is the length of the valid partial sequence (at least the
leading byte). -/
def utf8Decode1 (b : UInt8) (rest : List UInt8) : Option Char × Nat :=
  let n := b.toNat
  if n ≤ 0x7F then (some (Char.ofNat n), 1)
  else if 0xC2 ≤ n && n ≤ 0xDF then
    match rest with
    | b1 :: _ =>
      if contOk b1 then (some (Char.ofNat ((n - 0xC0) * 0x40 + (b1.toNat - 0x80))), 2)
      else (none, 1)
    | [] => (none, 1)
  else if 0xE0 ≤ n && n ≤ 0xEF then
    let lo1 := if n = 0xE0 then 0xA0 else 0x80
    let hi1 := if n = 0xED then 0x9F else 0xBF
    match rest with
    | b1 :: rest1 =>
      if lo1 ≤ b1.toNat && b1.toNat ≤ hi1 then
        match rest1 with
        | b2 :: _ =>
          if contOk b2 then
            (some (Char.ofNat ((n - 0xE0) * 0x1000 + (b1.toNat - 0x80) * 0x40 +
              (b2.toNat - 0x80))), 3)
          else (none, 2)
        | [] => (none, 2)
      else (none, 1)
    | [] => (none, 1)
  else if 0xF0 ≤ n && n ≤ 0xF4 then
    let lo1 := if n = 0xF0 then 0x90 else 0x80
    let hi1 := if n = 0xF4 then 0x8F else 0xBF
    match rest with
    | b1 :: rest1 =>
      if lo1 ≤ b1.toNat && b1.toNat ≤ hi1 then
        match rest1 with
        | b2 :: rest2 =>
          if contOk b2 then
            match rest2 with
            | b3 :: _ =>
              if contOk b3 then
                (some (Char.ofNat ((n - 0xF0) * 0x40000 + (b1.toNat - 0x80) * 0x1000 +
                  (b2.toNat - 0x80) * 0x40 + (b3.toNat - 0x80))), 4)
              else (none, 3)
            | [] => (none, 3)
          else (none, 2)
        | [] => (none, 2)
      else (none, 1)
    | [] => (none, 1)
  else (none, 1)

/-- The UTF-8 decoding loop: strict mode raises on the first invalid
sequence, ignore mode drops it and continues.  Every step consumes at
least one byte, so a fuel equal to the number of bytes suffices. -/
def utf8Loop (mode : ErrMode) : Nat → List UInt8 → Except Unit Chars
  | _, [] => .ok []
  | 0, _ => .ok []
  | fuel + 1, b :: rest =>
    match utf8Decode1 b rest with
    | (some c, k) => (utf8Loop mode fuel (rest.drop (k - 1))).map (fun tail => c :: tail)
    | (none, k) =>
      match mode with
      | ErrMode.strict => .error ()
      | ErrMode.ignore => utf8Loop mode fuel (rest.drop (k - 1))

def utf8DecodeBytes (mode : ErrMode) (bs : List UInt8) : Except Unit Chars :=
  utf8Loop mode bs.length bs

/-- Latin-1 maps every byte to the character of its value; it cannot
fail. -/
def latin1DecodeBytes (bs : List UInt8) : Chars := bs.map (fun b => Char.ofNat b.toNat)

def decodeBytes (enc : Enc) (mode : ErrMode) (bs : List UInt8) : Except Unit Chars :=
  match enc with
  | Enc.utf8 => utf8DecodeBytes mode bs
  | Enc.latin1 => .ok (latin1DecodeBytes bs)

/-- Embedding of read_text: raises on an unreadable file and on a decode
failure of the requested codec under its error handler. -/
def read_text (f : TFile) (enc : Enc) (mode : ErrMode) : Except ReadErr Chars :=
  match f.bytes with
  | none => .error ReadErr.ioFail
  | some bs =>
    match decodeBytes enc mode bs with
    | .ok text => .ok text
    | .error _ => .error ReadErr.decodeFail

/-- The try/except of parse_dir: any exception of the first read is
caught and the latin-1 read is attempted; an exception of the second read
propagates. -/
def readWithFallback (f : TFile) : Except ReadErr Chars :=
  match read_text f Enc.utf8 ErrMode.ignore with
  | .ok text => .ok text
  | .error _ => read_text f Enc.latin1 ErrMode.ignore

-- ### per-file processing and the corpus loop

/-- Line-break characters recognized by splitlines. -/
def isLineBreak (c : Char) : Bool :=
  c == '\n' || c == '\r' || c == '\x0b' || c == '\x0c' ||
  c == '\x1c' || c == '\x1d' || c == '\x1e' || c == '\x85' || c == '\u2028' || c == '\u2029'

/-- Embedding of splitlines; a carriage return followed by a newline is a
single break, and a trailing break produces no empty final line. -/
def splitlinesAux : Chars → Chars → List Chars
  | [], acc => if acc.isEmpty then [] else [acc.reverse]
  | '\r' :: '\n' :: rest, acc => acc.reverse :: splitlinesAux rest []
  | c :: rest, acc =>
    if isLineBreak c then acc.reverse :: splitlinesAux rest []
    else splitlinesAux rest (c :: acc)

def splitlines (s : Chars) : List Chars := splitlinesAux s []

/-- The per-file body of parse_dir: clean each line, join the surviving
lines with spaces, optionally lowercase, tokenize, and apply the length
and stopword filters. -/
def fileTokens (args : Args) (text : Chars) (fmt : Fmt) : List Chars :=
  let cleanedLines := ((splitlines text).map (fun ln => clean_line ln fmt)).filter
    (fun l => !l.isEmpty)
  let cleaned := joinSpace cleanedLines
  let cleaned := if args.lower then pyLower cleaned else cleaned
  (tokenize cleaned args.keep_numbers).filter
    (fun t => Nat.ble args.minlen t.length && !args.stop.contains t)

/-- The corpus loop of parse_dir: the word counter and the per-order
n-gram counters are threaded through the files; a failing read aborts the
loop with its error. -/
def parseDirGo (args : Args) :
    List TFile → Multiset Chars → (Nat → Multiset Chars) →
    Except ReadErr (Multiset Chars × (Nat → Multiset Chars))
  | [], w, g => .ok (w, g)
  | f :: fs, w, g =>
    match readWithFallback f with
    | .error e => .error e
    | .ok text =>
      let toks := fileTokens args text f.fmt
      parseDirGo args fs (w + (↑toks : Multiset Chars))
        (args.ngrams.foldl
          (fun h n => Function.update h n (h n + (↑(make_ngrams toks n) : Multiset Chars))) g)

/-- Embedding of parse_dir.  Counters are multisets of phrases: a
frequency table maps each phrase to its multiplicity. -/
def parse_dir (files : List TFile) (args : Args) :
    Except ReadErr (Multiset Chars × (Nat → Multiset Chars)) :=
  parseDirGo args files 0 (fun _ => 0)

/-- The text parse_dir obtains for a readable file. -/
def fileTextOf (f : TFile) : Chars :=
  match f.bytes with
  | some bs =>
    match utf8DecodeBytes ErrMode.ignore bs with
    | .ok text => text
    | .error _ => []
  | none => []

/-- The filtered token sequence parse_dir derives from a readable file. -/
def fileTokensOf (args : Args) (f : TFile) : List Chars :=
  fileTokens args (fileTextOf f) f.fmt

/-- The key-wise sum of the per-file unigram tables. -/
def unigramsOf (args : Args) (files : List TFile) : Multiset Chars :=
  (files.map (fun f => (↑(fileTokensOf args f) : Multiset Chars))).sum

/-- The key-wise sum of the per-file order-n tables, before the
multiplicity of the order in the requested list is accounted for. -/
def ngramsOf (args : Args) (files : List TFile) (n : Nat) : Multiset Chars :=
  (files.map (fun f => (↑(make_ngrams (fileTokensOf args f) n) : Multiset Chars))).sum

-- ### concrete corpora and configurations used in the statements

/-- Configuration with no filtering to speak of: minimum length one, no
stopwords, lowercasing on, numbers dropped, no extra orders. -/
def plainArgs : Args := ⟨1, [], true, false, []⟩

def alphaBytes : List UInt8 := [0x61, 0x62]

def betaBytes : List UInt8 := [0x63, 0x64]

def unreadableFile : TFile := ⟨Fmt.txt, none⟩

def c4FileA : TFile := ⟨Fmt.txt, some alphaBytes⟩

def c4FileB : TFile := ⟨Fmt.txt, some betaBytes⟩

/-- The scenario line of the spec, with its apostrophe. -/
def c6Line : Chars :=
  ['A', 'l', 'i', 'c', 'e', ':', ' ', 'I', ' ', 'd', 'o', 'n', '\'', 't', ' ',
   'k', 'n', 'o', 'w', ',', ' ', 'r', 'i', 'g', 'h', 't', '?']

/-- The scenario line after clean_line: the speaker prefix is gone. -/
def c6Clean : Chars :=
  ['I', ' ', 'd', 'o', 'n', '\'', 't', ' ', 'k', 'n', 'o', 'w', ',', ' ',
   'r', 'i', 'g', 'h', 't', '?']

/-- The configuration of the scenario: minimum length two, built-in
stopwords, lowercasing on. -/
def c6Args : Args := ⟨2, DEFAULT_STOPWORDS, true, false, []⟩

/-- Configuration requesting order two. -/
def w8Args : Args := ⟨1, [], true, false, [2]⟩

def w8Files : List TFile := [⟨Fmt.txt, some alphaBytes⟩]

/-- Configuration requesting order zero, as the unvalidated command line
permits. -/
def cex8Args : Args := ⟨2, [], true, false, [0]⟩

/-- One readable empty file. -/
def cex8Files : List TFile := [⟨Fmt.txt, some []⟩]

def w7Tokens : List Chars :=
  [strChars ("data"), strChars ("science"), strChars ("is"), strChars ("great")]
-- ### helper lemmas

theorem utf8Loop_ignore_ok :
    ∀ (fuel : Nat) (bs : List UInt8), ∃ text, utf8Loop ErrMode.ignore fuel bs = .ok text := by
  intro fuel
  induction fuel with
  | zero =>
    intro bs
    cases bs with
    | nil => exact ⟨[], rfl⟩
    | cons b rest => exact ⟨[], rfl⟩
  | succ m ih =>
    intro bs
    cases bs with
    | nil => exact ⟨[], rfl⟩
    | cons b rest =>
      rcases h : utf8Decode1 b rest with ⟨copt, k⟩
      cases copt with
      | some c =>
        obtain ⟨tail, htail⟩ := ih (rest.drop (k - 1))
        exact ⟨c :: tail, by simp [utf8Loop, h, htail, Except.map]⟩
      | none =>
        obtain ⟨tail, htail⟩ := ih (rest.drop (k - 1))
        exact ⟨tail, by simp [utf8Loop, h, htail]⟩

theorem utf8DecodeBytes_ignore_ok (bs : List UInt8) :
    ∃ text, utf8DecodeBytes ErrMode.ignore bs = .ok text :=
  utf8Loop_ignore_ok bs.length bs

theorem read_text_utf8_some (f : TFile) (bs : List UInt8) (h : f.bytes = some bs) :
    read_text f Enc.utf8 ErrMode.ignore = .ok (fileTextOf f) := by
  obtain ⟨text, htext⟩ := utf8DecodeBytes_ignore_ok bs
  simp [read_text, h, decodeBytes, htext, fileTextOf]

theorem readWithFallback_some (f : TFile) (bs : List UInt8) (h : f.bytes = some bs) :
    readWithFallback f = .ok (fileTextOf f) := by
  simp [readWithFallback, read_text_utf8_some f bs h]

theorem readWithFallback_none (f : TFile) (h : f.bytes = none) :
    readWithFallback f = .error ReadErr.ioFail := by
  simp [readWithFallback, read_text, h]

theorem readWithFallback_error (f : TFile) (e : ReadErr)
    (h : readWithFallback f = .error e) : f.bytes = none ∧ e = ReadErr.ioFail := by
  cases hb : f.bytes with
  | none =>
    rw [readWithFallback_none f hb] at h
    exact ⟨rfl, by injection h.symm⟩
  | some bs =>
    rw [readWithFallback_some f bs hb] at h
    exact absurd h (by simp)

theorem foldl_update_add (L : List Nat) (m : Nat → Multiset Chars) :
    ∀ g : Nat → Multiset Chars,
      L.foldl (fun h n => Function.update h n (h n + m n)) g =
        fun n => g n + L.count n • m n := by
  induction L with
  | nil => intro g; funext n; simp
  | cons k L ih =>
    intro g
    rw [List.foldl_cons, ih]
    funext n
    by_cases hn : n = k
    · subst hn
      simp [Function.update_same, List.count_cons, succ_nsmul]
      rw [add_assoc, add_comm (m n)]
    · simp [Function.update_noteq hn, List.count_cons, hn]

theorem parseDirGo_ok (args : Args) :
    ∀ fs : List TFile, (∀ f ∈ fs, (f.bytes).isSome = true) →
      ∀ (w : Multiset Chars) (g : Nat → Multiset Chars),
        parseDirGo args fs w g =
          .ok (w + (fs.map (fun f => (↑(fileTokensOf args f) : Multiset Chars))).sum,
            fun n => g n + args.ngrams.count n •
              (fs.map (fun f => (↑(make_ngrams (fileTokensOf args f) n) : Multiset Chars))).sum) := by
  intro fs
  induction fs with
  | nil => intro _ w g; simp [parseDirGo]
  | cons f fs ih =>
    intro hall w g
    have hf : (f.bytes).isSome = true := hall f (by simp)
    obtain ⟨bs, hbs⟩ : ∃ bs, f.bytes = some bs := by
      cases hb : f.bytes with
      | none => rw [hb] at hf; simp at hf
      | some bs => exact ⟨bs, rfl⟩
    have hrest : ∀ f2 ∈ fs, (f2.bytes).isSome = true := fun f2 hf2 => hall f2 (by simp [hf2])
    simp only [parseDirGo, readWithFallback_some f bs hbs]
    rw [show fileTokens args (fileTextOf f) f.fmt = fileTokensOf args f from rfl]
    rw [ih hrest, foldl_update_add]
    simp only [Except.ok.injEq, Prod.mk.injEq]
    constructor
    · rw [List.map_cons, List.sum_cons, add_assoc]
    · funext n
      rw [List.map_cons, List.sum_cons, smul_add, add_assoc]

theorem parse_dir_ok (args : Args) (files : List TFile)
    (hread : ∀ f ∈ files, (f.bytes).isSome = true) :
    parse_dir files args =
      .ok (unigramsOf args files, fun n => args.ngrams.count n • ngramsOf args files n) := by
  rw [parse_dir, parseDirGo_ok args files hread]
  simp only [Except.ok.injEq, Prod.mk.injEq, unigramsOf, ngramsOf]
  exact ⟨zero_add _, funext fun n => zero_add _⟩

theorem parseDirGo_readable (args : Args) :
    ∀ (fs : List TFile) (w : Multiset Chars) (g : Nat → Multiset Chars)
      (p : Multiset Chars × (Nat → Multiset Chars)),
      parseDirGo args fs w g = .ok p → ∀ f ∈ fs, (f.bytes).isSome = true := by
  intro fs
  induction fs with
  | nil => intro w g p _ f hf; simp at hf
  | cons f0 fs ih =>
    intro w g p hok f hf
    rw [show parseDirGo args (f0 :: fs) w g = (match readWithFallback f0 with
      | .error e => .error e
      | .ok text =>
        parseDirGo args fs (w + (↑(fileTokens args text f0.fmt) : Multiset Chars))
          (args.ngrams.foldl (fun h n =>
            Function.update h n
              (h n + (↑(make_ngrams (fileTokens args text f0.fmt) n) : Multiset Chars))) g))
      from rfl] at hok
    cases hrf : readWithFallback f0 with
    | error e => rw [hrf] at hok; exact absurd hok (by simp)
    | ok text =>
      rw [hrf] at hok
      rcases List.mem_cons.mp hf with h1 | h2
      · subst h1
        cases hb : f.bytes with
        | none => rw [readWithFallback_none f hb] at hrf; exact absurd hrf (by simp)
        | some bs => simp
      · exact ih _ _ _ hok f h2

theorem parse_dir_readable (args : Args) (files : List TFile)
    (p : Multiset Chars × (Nat → Multiset Chars)) (h : parse_dir files args = .ok p) :
    ∀ f ∈ files, (f.bytes).isSome = true :=
  parseDirGo_readable args files 0 (fun _ => 0) p h

theorem mem_listSum {α : Type} (l : List (Multiset α)) (a : α) :
    a ∈ l.sum ↔ ∃ s ∈ l, a ∈ s := by
  induction l with
  | nil => simp
  | cons s l ih => simp [List.sum_cons, Multiset.mem_add, ih]

theorem count_listSum {α : Type} [DecidableEq α] (l : List (Multiset α)) (a : α) :
    l.sum.count a = (l.map (Multiset.count a)).sum := by
  induction l with
  | nil => simp
  | cons s l ih => simp [List.sum_cons, Multiset.count_add, ih]

theorem card_listSum {α : Type} (l : List (Multiset α)) :
    Multiset.card l.sum = (l.map Multiset.card).sum := by
  induction l with
  | nil => simp
  | cons s l ih => simp [List.sum_cons, Multiset.card_add, ih]

theorem tokenize_ne_nil (text : Chars) (kn : Bool) : ∀ t ∈ tokenize text kn, t ≠ [] := by
  intro t ht
  obtain ⟨raw, _, hf⟩ := List.mem_filterMap.mp ht
  by_cases h1 : (!kn && pyIsDigit (procToken raw)) = true
  · simp [h1] at hf
  · rw [if_neg h1] at hf
    by_cases h2 : (!(procToken raw).isEmpty) = true
    · rw [if_pos h2] at hf
      cases hf
      simpa [List.isEmpty_iff] using h2
    · simp [h2] at hf

theorem fileTokens_ne_nil (args : Args) (text : Chars) (fmt : Fmt) :
    ∀ t ∈ fileTokens args text fmt, t ≠ [] := by
  intro t ht
  rw [fileTokens] at ht
  exact tokenize_ne_nil _ _ t (List.mem_of_mem_filter ht)

theorem joinSpace_ne_nil (x : Chars) (xs : List Chars) (hx : x ≠ []) :
    joinSpace (x :: xs) ≠ [] := by
  cases xs with
  | nil => simpa [joinSpace] using hx
  | cons y ys =>
    cases x with
    | nil => exact absurd rfl hx
    | cons c cs => simp [joinSpace]

theorem make_ngrams_mem_ne_nil (tokens : List Chars) (n : Nat) (h1 : 1 ≤ n)
    (htok : ∀ t ∈ tokens, t ≠ []) : ∀ p ∈ make_ngrams tokens n, p ≠ [] := by
  intro p hp
  rw [make_ngrams] at hp
  split at hp
  · simp at hp
  · rename_i hlen
    obtain ⟨i, hi, hpi⟩ := List.mem_map.mp hp
    have hiR : i < tokens.length - n + 1 := List.mem_range.mp hi
    have hlen2 : n ≤ tokens.length := Nat.le_of_not_lt hlen
    have hwlen : ((tokens.drop i).take n).length = min n (tokens.length - i) := by
      simp [List.length_take, List.length_drop]
    cases hw : (tokens.drop i).take n with
    | nil =>
      rw [hw] at hwlen
      simp at hwlen
      omega
    | cons x xs =>
      have hx : x ∈ tokens := by
        have hx1 : x ∈ (tokens.drop i).take n := by rw [hw]; simp
        exact List.mem_of_mem_drop (List.mem_of_mem_take hx1)
      rw [hw] at hpi
      rw [← hpi]
      exact joinSpace_ne_nil x xs (htok x hx)

-- ### the claims

/-- C1 counterexample: the Line Normalizer is not idempotent.  On the
line consisting of a capital a, a colon-space, a capital b, a colon-space
and the word hi, the first pass strips only the first speaker prefix, and
a second pass strips another one, so re-running clean_line changes its
output. -/
theorem clean_line_not_idempotent_cex :
    clean_line (clean_line (strChars ("A: B: hi")) Fmt.txt) Fmt.txt ≠
      clean_line (strChars ("A: B: hi")) Fmt.txt := by decide

/-- C1 amended: re-running clean_line on its own output is a no-op
exactly when every normalization rule already leaves that output
unchanged: no trailing line-end characters, no WEBVTT header and no cue
tags for the vtt format, no pure number line for the srt format, and the
URL, markup, timestamp and speaker-prefix substitutions, the cue test and
the trim all fixed.  In general a second pass may strip further text (see
the counterexample). -/
theorem clean_line_idempotent_of_fixed (s : Chars) (fmt : Fmt)
    (hcr : rstripCRNL (clean_line s fmt) = clean_line s fmt)
    (hvtt : fmt = Fmt.vtt → webvttMatch (clean_line s fmt) = false ∧
      cueTagSub (clean_line s fmt) = clean_line s fmt)
    (hsrt : fmt = Fmt.srt → lineNumberMatch (clean_line s fmt) = false)
    (hurl : urlSub (clean_line s fmt) = clean_line s fmt)
    (hhtml : htmlTagSub (clean_line s fmt) = clean_line s fmt)
    (hts : strip_timestamps_everywhere (clean_line s fmt) = clean_line s fmt)
    (hsp : speakerSub (clean_line s fmt) = clean_line s fmt)
    (hpw : parenWrapped (clean_line s fmt) = false)
    (htr : stripWs (clean_line s fmt) = clean_line s fmt) :
    clean_line (clean_line s fmt) fmt = clean_line s fmt := by
  set t := clean_line s fmt with hdef
  by_cases h0 : t = []
  · rw [h0]
    cases fmt <;> simp [clean_line, rstripCRNL]
  · have hcore : removalsCore t = t := by
      rw [removalsCore, hurl, hhtml, hts, hsp]
    have hfin : finishLine t = t := by rw [finishLine, hpw]; simp [htr]
    cases fmt with
    | txt =>
      rw [clean_line, hcr, if_neg h0]
      rw [hcore, hfin]
    | vtt =>
      rw [clean_line, hcr, if_neg h0, (hvtt rfl).1]
      simp only [Bool.false_eq_true, if_false]
      rw [(hvtt rfl).2, hcore, hfin]
    | srt =>
      rw [clean_line, hcr, if_neg h0, hsrt rfl]
      simp only [Bool.false_eq_true, if_false]
      rw [hcore, hfin]

/-- C1 witness for the amended statement at a concrete clean line. -/
theorem clean_line_idempotent_of_fixed_witness :
    clean_line (clean_line (strChars ("hello world")) Fmt.txt) Fmt.txt =
      clean_line (strChars ("hello world")) Fmt.txt :=
  clean_line_idempotent_of_fixed (strChars ("hello world")) Fmt.txt (by decide)
    (fun h => Fmt.noConfusion h) (fun h => Fmt.noConfusion h) (by decide) (by decide)
    (by decide) (by decide) (by decide) (by decide)

/-- C2 counterexample: the non-speech-cue test is applied to the
untrimmed remainder, not to the trimmed one.  On the laughter line
surrounded by spaces, the trimmed remainder is parenthesis-wrapped but
clean_line does not return the empty string. -/
theorem paren_cue_untrimmed_cex :
    parenWrapped (stripWs (afterRemovals (strChars (" (laughter) ")) Fmt.txt)) = true ∧
    clean_line (strChars (" (laughter) ")) Fmt.txt ≠ [] := by decide

/-- C2 amended: when the remainder after URL, markup, timestamp and
speaker-prefix removal is itself (without trimming) wrapped in
parentheses or square brackets, clean_line returns the empty string; in
particular the plain laughter line is dropped under every format. -/
theorem paren_cue_drop :
    (∀ (line : Chars) (fmt : Fmt),
      parenWrapped (afterRemovals line fmt) = true → clean_line line fmt = []) ∧
    (∀ fmt : Fmt, clean_line (strChars ("(laughter)")) fmt = []) := by
  constructor
  · intro line fmt h
    by_cases h0 : rstripCRNL line = []
    · cases fmt <;> rw [clean_line, if_pos h0]
    · cases fmt with
      | txt =>
        rw [afterRemovals] at h
        rw [clean_line, if_neg h0, finishLine, h]
        simp
      | vtt =>
        rw [afterRemovals] at h
        rw [clean_line, if_neg h0]
        by_cases hw : webvttMatch (rstripCRNL line) = true
        · rw [hw]; simp
        · simp only [Bool.not_eq_true] at hw
          rw [hw]
          simp only [Bool.false_eq_true, if_false]
          rw [finishLine, h]
          simp
      | srt =>
        rw [afterRemovals] at h
        rw [clean_line, if_neg h0]
        by_cases hl : lineNumberMatch (rstripCRNL line) = true
        · rw [hl]; simp
        · simp only [Bool.not_eq_true] at hl
          rw [hl]
          simp only [Bool.false_eq_true, if_false]
          rw [finishLine, h]
          simp
  · intro fmt
    cases fmt <;> decide

/-- C2 witness for the amended statement: the laughter line is wrapped
after the removals and is dropped. -/
theorem paren_cue_drop_witness :
    clean_line (strChars ("(laughter)")) Fmt.txt = [] :=
  paren_cue_drop.1 (strChars ("(laughter)")) Fmt.txt (by decide)

/-- C3: a per-file read error does not make parse_dir skip the file.
On a corpus whose second file is unreadable, the retry under the latin-1
codec fails with the same error, the exception propagates out of the
loop, and the whole run aborts even though a readable third file
remains. -/
theorem parse_dir_unreadable_aborts :
    parse_dir [⟨Fmt.txt, some alphaBytes⟩, unreadableFile, ⟨Fmt.txt, some betaBytes⟩]
        plainArgs = .error ReadErr.ioFail ∧
    parse_dir [⟨Fmt.txt, some alphaBytes⟩, ⟨Fmt.txt, some betaBytes⟩] plainArgs ≠
      .error ReadErr.ioFail := by
  constructor
  · rfl
  · rw [parse_dir_ok plainArgs [⟨Fmt.txt, some alphaBytes⟩, ⟨Fmt.txt, some betaBytes⟩]
      (by decide)]
    simp

/-- C5: strip_timestamps_everywhere applies the five rules once each in
the stated order, replacing each match by one space.  The first conjunct
fixes the composition order.  The bracketed stamp shows rule two firing
before rule three: with the opposite order the inner stamp would be
removed first and the brackets would survive.  The last two conjuncts
show that no rule re-scans substituted text: removing an inner bracketed
stamp creates a range-shaped string, which rule one alone would have
collapsed to one space, yet the arrow survives in the final output. -/
theorem strip_timestamps_rule_order :
    (∀ s : Chars, strip_timestamps_everywhere s =
      stampMsSub (stampHmsSub (stampHmsMsSub (stampBracketedSub (rangeVttSub s))))) ∧
    strip_timestamps_everywhere (strChars ("[00:01:23]")) = [' '] ∧
    stampBracketedSub (stampHmsSub (strChars ("[00:01:23]"))) = strChars ("[ ]") ∧
    strip_timestamps_everywhere (strChars ("00:00:00.000[1:23]-->00:00:00.000")) =
      strChars ("  --> ") ∧
    rangeVttSub (strChars ("00:00:00.000 -->00:00:00.000")) = [' '] :=
  ⟨fun _ => rfl, by decide, by decide, by decide, by decide⟩

/-- C6: on the scenario line, clean_line strips the speaker prefix,
lowercasing and tokenization give the four raw tokens, and the length
and stopword filters leave exactly the two middle ones. -/
theorem scenario_speaker_stopword :
    clean_line c6Line Fmt.txt = c6Clean ∧
    tokenize (pyLower (clean_line c6Line Fmt.txt)) false =
      [strChars ("i"), strChars ("dont"), strChars ("know"), strChars ("right")] ∧
    fileTokens c6Args c6Line Fmt.txt = [strChars ("dont"), strChars ("know")] :=
  ⟨by decide, by decide, by decide⟩

/-- C4: on a corpus of readable files the run succeeds, the unigram table
is invariant under permutation of the corpus, each key counts the
occurrences summed over the per-file token sequences, and the total count
is the summed number of surviving tokens. -/
theorem parse_dir_unigram_additive (args : Args) (files files2 : List TFile)
    (hread : ∀ f ∈ files, (f.bytes).isSome = true) (hperm : files.Perm files2) :
    ∃ W G W2 G2, parse_dir files args = .ok (W, G) ∧
      parse_dir files2 args = .ok (W2, G2) ∧ W = W2 ∧
      (∀ k : Chars, W.count k =
        (files.map (fun f => (↑(fileTokensOf args f) : Multiset Chars).count k)).sum) ∧
      Multiset.card W = (files.map (fun f => (fileTokensOf args f).length)).sum := by
  have hread2 : ∀ f ∈ files2, (f.bytes).isSome = true :=
    fun f hf => hread f (hperm.mem_iff.mpr hf)
  refine ⟨unigramsOf args files, _, unigramsOf args files2, _,
    parse_dir_ok args files hread, parse_dir_ok args files2 hread2, ?_, ?_, ?_⟩
  · rw [unigramsOf, unigramsOf]
    exact (hperm.map (fun f => (↑(fileTokensOf args f) : Multiset Chars))).sum_eq
  · intro k
    rw [unigramsOf, count_listSum, List.map_map]
    rfl
  · rw [unigramsOf, card_listSum, List.map_map]
    exact congrArg List.sum (List.map_congr_left (fun f _ => Multiset.coe_card _))

/-- C4 witness at a two-file corpus and its transposition. -/
theorem parse_dir_unigram_additive_witness :
    ∃ W G W2 G2, parse_dir [c4FileA, c4FileB] plainArgs = .ok (W, G) ∧
      parse_dir [c4FileB, c4FileA] plainArgs = .ok (W2, G2) ∧ W = W2 ∧
      (∀ k : Chars, W.count k =
        ([c4FileA, c4FileB].map
          (fun f => (↑(fileTokensOf plainArgs f) : Multiset Chars).count k)).sum) ∧
      Multiset.card W =
        ([c4FileA, c4FileB].map (fun f => (fileTokensOf plainArgs f).length)).sum :=
  parse_dir_unigram_additive plainArgs [c4FileA, c4FileB] [c4FileB, c4FileA]
    (by decide) (List.Perm.swap c4FileB c4FileA [])

/-- C7: for every order of at least two, make_ngrams yields nothing when
fewer tokens than the order remain, and otherwise yields one phrase per
window: the list has one entry for each of the length minus order plus
one starting positions, and the entry at position i is the window of
exactly n tokens starting at i joined by single spaces. -/
theorem make_ngrams_windows (tokens : List Chars) (n : Nat) (hn : 2 ≤ n) :
    (tokens.length < n → make_ngrams tokens n = []) ∧
    (n ≤ tokens.length →
      (make_ngrams tokens n).length = tokens.length - n + 1 ∧
      ∀ i, i < tokens.length - n + 1 →
        (make_ngrams tokens n).get? i = some (joinSpace ((tokens.drop i).take n))) := by
  constructor
  · intro h
    rw [make_ngrams, if_pos h]
  · intro h
    have h2 : ¬ tokens.length < n := Nat.not_lt.mpr h
    rw [make_ngrams, if_neg h2]
    constructor
    · simp
    · intro i hi
      rw [List.get?_map, List.get?_range hi]
      rfl

/-- C7 witness on the four scenario tokens at order two. -/
theorem make_ngrams_windows_witness :
    (make_ngrams w7Tokens 2).length = w7Tokens.length - 2 + 1 ∧
      (make_ngrams w7Tokens 2).get? 1 = some (joinSpace ((w7Tokens.drop 1).take 2)) := by
  have h := (make_ngrams_windows w7Tokens 2 (by decide)).2 (by decide)
  exact ⟨h.1, h.2 1 (by decide)⟩

/-- C8 counterexample: with a requested order of zero, the order-zero
table of a one-file corpus holds the empty phrase with a positive count,
so an aggregator table can contain the empty-string key. -/
theorem table_empty_key_cex :
    ∃ W G, parse_dir cex8Files cex8Args = .ok (W, G) ∧ 0 ∈ cex8Args.ngrams ∧
      0 < (G 0).count ([] : Chars) := by
  refine ⟨_, _, parse_dir_ok cex8Args cex8Files (by decide), by decide, ?_⟩
  rw [show (cex8Args.ngrams.count 0) = 1 from rfl, one_nsmul]
  decide

/-- C8 amended: no aggregator table contains the empty-string key for the
unigram table or any requested order of at least one; only the
degenerate order zero (or lower), which the command line does not
reject, can insert it. -/
theorem tables_no_empty_key (args : Args) (files : List TFile) (W : Multiset Chars)
    (G : Nat → Multiset Chars) (hok : parse_dir files args = .ok (W, G))
    (n : Nat) (hn : n ∈ args.ngrams) (h1 : 1 ≤ n) :
    ([] : Chars) ∉ W ∧ ([] : Chars) ∉ G n := by
  have hread := parse_dir_readable args files (W, G) hok
  rw [parse_dir_ok args files hread] at hok
  simp only [Except.ok.injEq, Prod.mk.injEq] at hok
  obtain ⟨hW, hG⟩ := hok
  constructor
  · rw [← hW]
    intro hmem
    rw [unigramsOf] at hmem
    obtain ⟨s, hs, hmem2⟩ := (mem_listSum _ _).mp hmem
    obtain ⟨f, _, hfs⟩ := List.mem_map.mp hs
    rw [← hfs] at hmem2
    exact fileTokens_ne_nil args (fileTextOf f) f.fmt [] (Multiset.mem_coe.mp hmem2) rfl
  · rw [← hG]
    intro hmem
    have hmem2 := Multiset.mem_of_mem_nsmul hmem
    rw [ngramsOf] at hmem2
    obtain ⟨s, hs, hmem3⟩ := (mem_listSum _ _).mp hmem2
    obtain ⟨f, _, hfs⟩ := List.mem_map.mp hs
    rw [← hfs] at hmem3
    exact make_ngrams_mem_ne_nil (fileTokensOf args f) n h1
      (fileTokens_ne_nil args (fileTextOf f) f.fmt) [] (Multiset.mem_coe.mp hmem3) rfl

/-- C8 witness for the amended statement: a one-file corpus with order
two requested has no empty key in either table. -/
theorem tables_no_empty_key_witness :
    ([] : Chars) ∉ unigramsOf w8Args w8Files ∧
      ([] : Chars) ∉ w8Args.ngrams.count 2 • ngramsOf w8Args w8Files 2 :=
  tables_no_empty_key w8Args w8Files _ _ (parse_dir_ok w8Args w8Files (by decide)) 2
    (by decide) (by decide)

/-- C9: decoding bytes as UTF-8 with the error-ignoring handler always
succeeds; read_text under that codec can only raise for a file whose
bytes are unobtainable, and on any readable file the latin-1 fallback
branch is never taken. -/
theorem utf8_ignore_total :
    (∀ bs : List UInt8, ∃ text, decodeBytes Enc.utf8 ErrMode.ignore bs = .ok text) ∧
    (∀ (f : TFile) (e : ReadErr), read_text f Enc.utf8 ErrMode.ignore = .error e →
      e = ReadErr.ioFail ∧ f.bytes = none) ∧
    (∀ (f : TFile) (bs : List UInt8), f.bytes = some bs →
      readWithFallback f = read_text f Enc.utf8 ErrMode.ignore) := by
  refine ⟨fun bs => utf8DecodeBytes_ignore_ok bs, ?_, ?_⟩
  · intro f e h
    cases hb : f.bytes with
    | none =>
      rw [read_text, hb] at h
      exact ⟨by injection h.symm, rfl⟩
    | some bs =>
      rw [read_text_utf8_some f bs hb] at h
      exact absurd h (by simp)
  · intro f bs hb
    rw [readWithFallback_some f bs hb, read_text_utf8_some f bs hb]

/-- C9 witness: a file of one invalid byte decodes through the primary
branch and the fallback is not consulted. -/
theorem utf8_ignore_total_witness :
    readWithFallback ⟨Fmt.txt, some [0xFF]⟩ =
      read_text ⟨Fmt.txt, some [0xFF]⟩ Enc.utf8 ErrMode.ignore :=
  utf8_ignore_total.2.2 ⟨Fmt.txt, some [0xFF]⟩ [0xFF] rfl

/-- C10: with order zero the length guard never fires and every window is
the empty slice, so make_ngrams returns one empty phrase per position,
one more than the number of tokens; consequently a run that requests
order zero on a nonempty corpus records the empty-string key with a
positive count in the order-zero table. -/
theorem make_ngrams_zero_empty :
    (∀ tokens : List Chars, make_ngrams tokens 0 = List.replicate (tokens.length + 1) []) ∧
    (∀ (args : Args) (files : List TFile) (W : Multiset Chars) (G : Nat → Multiset Chars),
      parse_dir files args = .ok (W, G) → 0 ∈ args.ngrams → files ≠ [] →
      0 < (G 0).count ([] : Chars)) := by
  have hrep : ∀ tokens : List Chars,
      make_ngrams tokens 0 = List.replicate (tokens.length + 1) [] := by
    intro tokens
    rw [make_ngrams, if_neg (Nat.not_lt_zero _)]
    apply List.eq_replicate.mpr
    constructor
    · simp
    · intro b hb
      obtain ⟨i, _, hbi⟩ := List.mem_map.mp hb
      rw [← hbi]
      rfl
  refine ⟨hrep, ?_⟩
  intro args files W G hok h0 hne
  have hread := parse_dir_readable args files (W, G) hok
  rw [parse_dir_ok args files hread] at hok
  simp only [Except.ok.injEq, Prod.mk.injEq] at hok
  rw [← hok.2]
  rw [Multiset.count_nsmul]
  apply Nat.mul_pos
  · exact List.count_pos_iff.mpr h0
  · cases files with
    | nil => exact absurd rfl hne
    | cons f fs =>
      rw [ngramsOf, List.map_cons, List.sum_cons, Multiset.count_add]
      apply Nat.lt_of_lt_of_le _ (Nat.le_add_right _ _)
      rw [hrep, Multiset.coe_replicate, Multiset.count_replicate_self]
      exact Nat.succ_pos _

/-- C10 witness: the empty-file corpus with order zero requested yields a
positive count for the empty phrase in the order-zero table. -/
theorem make_ngrams_zero_empty_witness :
    0 < (cex8Args.ngrams.count 0 • ngramsOf cex8Args cex8Files 0).count ([] : Chars) :=
  make_ngrams_zero_empty.2 cex8Args cex8Files _ _
    (parse_dir_ok cex8Args cex8Files (by decide)) (by decide) (by decide)
